import Mathlib

/-!
# Verification of mvr's core data-movement logic

Shallow embedding, in Lean, of the parts of the `mvr` data mover that the
frozen claims are about:

* the Parquet decimal encoder (`convertToParquetDecimal` string path,
  `convertDecimalStringToUnscaledInt`, `calculateBytesForPrecision`,
  `bigIntToFixedBytes` from `file/parquet_writer.go`);
* the SQL Server UUID fixup (`ConvertSQLServerUUID` from `data/datastream.go`
  and its use in `MSDataReader.ExecuteDataStream`);
* Snowflake column normalization (`sfColumnsToPg` from `database/database.go`);
* the reader's batch-dispatch loop (`PGDataReader.ExecuteDataStream`) and the
  writer-side row counter (`DataStream.BatchesToWriter`);
* stream-config parameter handling (`NewStreamConfigFromYaml`, `SortKeys`,
  `BuildParams`).

Go machine integers are embedded as `Int` with explicit reduction modulo
`2 ^ w` where Go performs a narrowing conversion; byte slices are `List Nat`
(each element intended `< 256`); Go strings are `List Char` where character
level manipulation matters and `String` where only equality matters.
Fallible Go functions (returning `(T, error)`) are embedded as `Option`.
-/

set_option maxRecDepth 1000000

namespace Mvr

/-! ## Two's-complement helpers

`toSigned w n` reads the `w`-bit pattern `n % 2 ^ w` as a signed two's
complement integer.  `goIntCast w x` is Go's narrowing integer conversion
(`int32(x)`, `int64(x)`): reduce modulo `2 ^ w`, then reinterpret signed.
`big.Int.Int64()` on an out-of-range value returns the low 64 bits with the
sign applied, which coincides with `goIntCast 64` (Go documents the result as
undefined; the implementation behaves this way). -/

def toSigned (w : Nat) (n : Nat) : Int :=
  if n % 2 ^ w < 2 ^ (w - 1) then ((n % 2 ^ w : Nat) : Int)
  else ((n % 2 ^ w : Nat) : Int) - ((2 ^ w : Nat) : Int)

def goIntCast (w : Nat) (x : Int) : Int :=
  toSigned w (x % (2 ^ w : Nat)).toNat

/-! ## Big-endian byte strings

`natToBytes` is the model of Go `big.Int.Bytes()` (applied to the absolute
value): the minimal big-endian base-256 representation, empty for `0`.
`bytesToNat` is its inverse, used to state what an emitted byte string
denotes. -/

def natToBytesAux : Nat → Nat → List Nat
  | 0, _ => []
  | fuel + 1, n => if n = 0 then [] else natToBytesAux fuel (n / 256) ++ [n % 256]

def natToBytes (n : Nat) : List Nat := natToBytesAux n n

def bytesToNat (bs : List Nat) : Nat :=
  bs.foldl (fun acc b => acc * 256 + b) 0

/-- Decoding of a big-endian two's-complement fixed byte string, as the
Parquet DECIMAL logical type prescribes for FIXED_LEN_BYTE_ARRAY. -/
def decodeFixedBytes (bs : List Nat) : Int :=
  toSigned (8 * bs.length) (bytesToNat bs)

/-! ## `calculateBytesForPrecision` (file/parquet_writer.go)

The Go code computes
`bytesNeeded = ceil((ceil(precision * log2(10)) + 1) / 8)` using `float64`
arithmetic.  Here the inner ceiling is computed exactly:
for `p ≥ 1`, `ceil(p * log2 10) = floor(log2 (10 ^ p)) + 1 = Nat.log2 (10 ^ p) + 1`
(`p * log2 10` is never an integer).  The `float64` computation agrees with
the exact value for every precision up to at least 5000, which covers every
precision any supported database can report. -/

def log2Aux : Nat → Nat → Nat
  | 0, _ => 0
  | fuel + 1, n => if n ≥ 2 then log2Aux fuel (n / 2) + 1 else 0

/-- Floor of the base-2 logarithm (`Nat.log2`, written with structural fuel
so that concrete instances evaluate inside the kernel). -/
def natLog2 (n : Nat) : Nat := log2Aux n n

def ceilLog2Pow10 (p : Nat) : Nat :=
  if p = 0 then 0 else natLog2 (10 ^ p) + 1

def calculateBytesForPrecision (precision : Nat) : Nat :=
  let bitsNeeded := ceilLog2Pow10 precision + 1
  (bitsNeeded + 7) / 8

/-! ## `bigIntToFixedBytes` (file/parquet_writer.go)

For a negative value the Go code computes `2^(8*size) - |v|` as a `big.Int`
and calls `.Bytes()` on it; `.Bytes()` returns the bytes of the absolute
value, so the model takes `Int.natAbs` of the (possibly negative) difference
exactly as the library does. -/

def bigIntToFixedBytes (value : Int) (precision : Nat) : Option (List Nat) :=
  let size := calculateBytesForPrecision precision
  let bytesVal : List Nat :=
    if value < 0 then
      natToBytes ((2 ^ (8 * size) - (value.natAbs : Int)).natAbs)
    else
      natToBytes value.natAbs
  if bytesVal.length > size then
    none
  else if value < 0 then
    some (List.replicate (size - bytesVal.length) 0xFF ++ bytesVal)
  else
    some (List.replicate (size - bytesVal.length) 0 ++ bytesVal)

/-! ## Decimal strings (`convertDecimalStringToUnscaledInt`, file/parquet_writer.go)

Decimal strings are embedded as `List Char`.  `splitDot` is Go's
`strings.Split(s, ".")` specialised to the one-character separator `"."`:
it returns the (possibly empty) fragments between occurrences of `'.'`,
one more fragment than there are dots. -/

def splitDot : List Char → List (List Char)
  | [] => [[]]
  | c :: rest =>
    if c = '.' then [] :: splitDot rest
    else
      match splitDot rest with
      | [] => [[c]]
      | g :: gs => (c :: g) :: gs

def isDigitChar (c : Char) : Bool :=
  '0' ≤ c ∧ c ≤ '9'

def digitVal (c : Char) : Nat := c.toNat - '0'.toNat

/-- Value of a digit string, most significant first. -/
def digitsVal (cs : List Char) : Nat :=
  cs.foldl (fun acc c => acc * 10 + digitVal c) 0

/-- Model of `big.Int.SetString(s, 10)` restricted to what it accepts in
base 10: an optional leading sign followed by at least one decimal digit,
nothing else.  Returns `none` exactly when the Go call reports failure. -/
def setStringCore (ds : List Char) : Option Int :=
  if ds ≠ [] ∧ ds.all isDigitChar then some (digitsVal ds : Int) else none

def setStringBase10 (cs : List Char) : Option Int :=
  if cs.head? = some '-' then (setStringCore cs.tail).map (fun n => -n)
  else if cs.head? = some '+' then setStringCore cs.tail
  else setStringCore cs

/-- Embedding of `convertDecimalStringToUnscaledInt` (file/parquet_writer.go):
split on the decimal point, reject more than one point or a fractional part
longer than `scale`, right-pad the fractional part with zeros to `scale`
digits, concatenate after the integer part and parse as a signed big
integer; one leading minus sign is stripped up front and re-applied at the
end. -/
def convertDecimalStringToUnscaledInt (decimalStr : List Char) (scale : Nat) :
    Option Int :=
  if decimalStr = [] then none
  else
    let negative := decimalStr.head? = some '-'
    let stripped := if negative then decimalStr.tail else decimalStr
    let parts := splitDot stripped
    if parts.length > 2 then none
    else
      let integerPart := parts.headD []
      let fractionalPart := if parts.length = 2 then parts.getD 1 [] else []
      if fractionalPart.length > scale then none
      else
        let padded := fractionalPart ++ List.replicate (scale - fractionalPart.length) '0'
        let unscaledStr := integerPart ++ padded
        match setStringBase10 unscaledStr with
        | none => none
        | some v => some (if negative then -v else v)

/-! ## `convertToParquetDecimal`, string case (file/parquet_writer.go)

The encoder's per-value result is a tagged value mirroring the Go
`ParquetDecimal` struct with its `DecimalType` discriminator.  The `Int`
payloads carry the mathematical value of the emitted `int32` / `int64`. -/

inductive ParquetDecimal where
  | int32Val (v : Int)
  | int64Val (v : Int)
  | byteArrayVal (bs : List Nat)
  deriving Repr, DecidableEq

/-- The `case string:` arm of `convertToParquetDecimal`
(file/parquet_writer.go).  `int32(unscaledInt.Int64())` is embedded as
`goIntCast 32 (goIntCast 64 _)`; no range check is performed by the source
on this path. -/
def convertToParquetDecimalString (s : List Char) (precision scale : Nat) :
    Option ParquetDecimal :=
  match convertDecimalStringToUnscaledInt s scale with
  | none => none
  | some unscaledInt =>
    if precision ≤ 9 then
      some (ParquetDecimal.int32Val (goIntCast 32 (goIntCast 64 unscaledInt)))
    else if precision ≤ 18 then
      some (ParquetDecimal.int64Val (goIntCast 64 unscaledInt))
    else
      (bigIntToFixedBytes unscaledInt precision).map ParquetDecimal.byteArrayVal

/-- Value denoted by an encoded Parquet decimal: the `int32`/`int64` payload
itself, or the big-endian two's-complement reading of the fixed byte
string. -/
def decodeParquetDecimal : ParquetDecimal → Int
  | ParquetDecimal.int32Val v => v
  | ParquetDecimal.int64Val v => v
  | ParquetDecimal.byteArrayVal bs => decodeFixedBytes bs

/-! ### Specification-side views of decimal strings

`mkDecimalString` builds the textual form `[-]I[.F]` of a plain decimal
literal; `decimalUnscaled` is its exact unscaled integer at a given scale
(`round(value * 10^scale)`, exact whenever the fractional part has at most
`scale` digits); `decimalRatValue` is its exact rational value.  These are
used to state what the source functions compute, not to define them. -/

def fracTail : Option (List Char) → List Char
  | some f => '.' :: f
  | none => []

def mkDecimalString (sign : Bool) (intPart : List Char)
    (fracPart : Option (List Char)) : List Char :=
  (if sign then ['-'] else []) ++ intPart ++ fracTail fracPart

def decimalUnscaled (sign : Bool) (I F : List Char) (scale : Nat) : Int :=
  (if sign then -1 else 1) *
    ((digitsVal I : Int) * 10 ^ scale + (digitsVal F : Int) * 10 ^ (scale - F.length))

def decimalRatValue (sign : Bool) (I F : List Char) : ℚ :=
  (if sign then -1 else 1) * ((digitsVal I : ℚ) + (digitsVal F : ℚ) / 10 ^ F.length)

/-! ## SQL Server UUID fixup (`ConvertSQLServerUUID`, data/datastream.go)

Byte slices are `List Nat`.  The function swaps the first three UUID fields
into RFC-4122 order and is a no-op on slices that are not exactly 16 bytes
long. -/

def ConvertSQLServerUUID (sqlBytes : List Nat) : List Nat :=
  if sqlBytes.length ≠ 16 then sqlBytes
  else
    [sqlBytes.getD 3 0, sqlBytes.getD 2 0, sqlBytes.getD 1 0, sqlBytes.getD 0 0,
     sqlBytes.getD 5 0, sqlBytes.getD 4 0,
     sqlBytes.getD 7 0, sqlBytes.getD 6 0] ++ sqlBytes.drop 8

/-- A dynamic row cell (`any` in Go), restricted to the shapes the UUID
fixup inspects: SQL `NULL`, a byte slice, or anything else. -/
inductive Cell where
  | null
  | bytes (bs : List Nat)
  | other (tag : String)
  deriving Repr, DecidableEq

/-- The per-cell body of the UUID-fixup loop in
`MSDataReader.ExecuteDataStream` (database/ms_sql_server.go): when
`KeepOriginalUUID` is unset and the destination column type is `UUID`, a
non-nil 16-byte value is replaced by its converted form; everything else
passes through unchanged. -/
def msUUIDFixupCell (keepOriginalUUID : Bool) (colType : String) (cell : Cell) : Cell :=
  if !keepOriginalUUID ∧ colType = "UUID" then
    match cell with
    | Cell.null => Cell.null
    | Cell.bytes bs =>
      if bs.length = 16 then Cell.bytes (ConvertSQLServerUUID bs) else Cell.bytes bs
    | Cell.other t => Cell.other t
  else cell

/-- Lower-case hex digit. -/
def hexDigit (n : Nat) : Char :=
  if n < 10 then Char.ofNat ('0'.toNat + n) else Char.ofNat ('a'.toNat + (n - 10))

def byteToHex (b : Nat) : List Char := [hexDigit (b / 16), hexDigit (b % 16)]

def bytesToHex (bs : List Nat) : List Char := (bs.map byteToHex).flatten

/-- Canonical hyphenated RFC-4122 rendering of a 16-byte UUID (8-4-4-4-12
lower-case hex groups), as the encoders emit it. -/
def uuidCanonicalString (bs : List Nat) : List Char :=
  bytesToHex (bs.take 4) ++ '-' :: bytesToHex ((bs.drop 4).take 2) ++
    '-' :: bytesToHex ((bs.drop 6).take 2) ++ '-' :: bytesToHex ((bs.drop 8).take 2) ++
    '-' :: bytesToHex (bs.drop 10)

/-- The `swap3` byte permutation of the spec: positions 0-3 reversed, 4-5
reversed, 6-7 reversed, 8-15 fixed. -/
def swap3Index (i : Nat) : Nat :=
  if i < 4 then 3 - i
  else if i < 6 then 9 - i
  else if i < 8 then 13 - i
  else i

/-! ## Snowflake column normalization (`sfColumnsToPg`, database/snowflake.go)

The embedded `Column` mirrors the current generation of `data.Column`: name,
driver-reported type (`DatabaseType`), normalized destination type (`Type`,
the field the writers dispatch on via `data.TypeAlias`), length,
nullability, scan type, ordinal position, scale, precision.  Numeric
attributes are Go `int64`/`int`, embedded as `Int`. -/

structure Column where
  name : String
  databaseType : String
  type : String
  length : Int
  nullable : Bool
  scanType : String
  position : Int
  scale : Int
  precision : Int
  deriving Repr, DecidableEq

/-- Loop body of `sfColumnsToPg` (database/snowflake.go, the current
generation; the same function body also appears in
database/ms_sql_server.go without the TEXT case): the destination `type` is
first set to the driver `databaseType`, then the switch overrides it —
FIXED becomes NUMERIC unconditionally (precision and scale are reassigned
unchanged), TIMESTAMP_NTZ and TIMESTAMP_LTZ become TIMESTAMP, TIMESTAMP_TZ
becomes TIMESTAMPTZ, ARRAY and VARIANT become JSONB, and TEXT becomes
VARCHAR when its length is below 16777216 (the source's `col.Length = -1`
in the else branch assigns to the loop-local copy and is a no-op). -/
def sfColToPg (col : Column) : Column :=
  let base := { col with type := col.databaseType }
  if col.databaseType = "FIXED" then
    { base with type := "NUMERIC", precision := col.precision, scale := col.scale }
  else if col.databaseType = "TIMESTAMP_NTZ" ∨ col.databaseType = "TIMESTAMP_LTZ" then
    { base with type := "TIMESTAMP" }
  else if col.databaseType = "TIMESTAMP_TZ" then
    { base with type := "TIMESTAMPTZ" }
  else if col.databaseType = "ARRAY" ∨ col.databaseType = "VARIANT" then
    { base with type := "JSONB" }
  else if col.databaseType = "TEXT" then
    if col.length < 16777216 then { base with type := "VARCHAR" }
    else { base with type := "TEXT" }
  else base

def sfColumnsToPg (columns : List Column) : List Column :=
  columns.map sfColToPg

/-- Modelled from the spec: `data.TypeAlias` (referenced by the encoders but
not present in the provided sources) resolves the accepted synonyms of the
canonical type vocabulary — BOOL↔BOOLEAN, INT2↔SMALLINT, INT4↔INTEGER,
INT8↔BIGINT, FLOAT4↔REAL, FLOAT8↔DOUBLE — and leaves every other name
unchanged. -/
def TypeAlias (t : String) : String :=
  if t = "BOOL" then "BOOLEAN"
  else if t = "INT2" then "SMALLINT"
  else if t = "INT4" then "INTEGER"
  else if t = "INT8" then "BIGINT"
  else if t = "FLOAT4" then "REAL"
  else if t = "FLOAT8" then "DOUBLE"
  else t

/-! ## Batch dispatch (`PGDataReader.ExecuteDataStream`, database/postgres.go)
and the writer-side row counter (`DataStream.BatchesToWriter`,
data/datastream.go)

The reader loop appends each scanned row to the current batch and sends the
batch as soon as its length reaches `BatchSize`, sending a final partial
batch on exhaustion.  Sent batches are modelled as the list of batches in
send order; rows are an opaque type. -/

def dispatchAux {α : Type} (batchSize : Nat) : List α → List α → List (List α)
  | [], cur => if cur.isEmpty then [] else [cur]
  | r :: rest, cur =>
    let cur' := cur ++ [r]
    if batchSize ≤ cur'.length then cur' :: dispatchAux batchSize rest []
    else dispatchAux batchSize rest cur'

def dispatchBatches {α : Type} (batchSize : Nat) (rows : List α) : List (List α) :=
  dispatchAux batchSize rows []

/-- `DataStream.BatchesToWriter` (data/datastream.go) adds `len(batch.Rows)`
to `TotalRows` for every batch it consumes; over a list of consumed batches
the counter accumulates their lengths. -/
def batchesToWriterTotal {α : Type} (totalRows : Nat) (batches : List (List α)) : Nat :=
  batches.foldl (fun acc b => acc + b.length) totalRows

/-- `StreamConfig.GetBatchSize` (data/config handling): 100000 when the
configured value is zero. -/
def GetBatchSize (batchSize : Int) : Int :=
  if batchSize = 0 then 100000 else batchSize

/-! ## Stream-config parameters (`NewStreamConfigFromYaml`, `SortKeys`,
data/config; `BuildParams`, database/database.go)

Go maps are embedded as association lists with unique keys; iteration order
of the env-variable map does not affect the result (each env key touches a
distinct entry), so the merge is a fold over the env list. -/

structure Param where
  value : String
  type : String
  deriving Repr, DecidableEq

def lookupParam : List (String × Param) → String → Option Param
  | [], _ => none
  | q :: m, k => if q.1 = k then some q.2 else lookupParam m k

/-- The declared type an environment-supplied parameter ends up with: the
YAML-declared type when present and non-empty, otherwise TEXT. -/
def envMergedType (yamlEntry : Option Param) : String :=
  match yamlEntry with
  | some p => if p.type = "" then "TEXT" else p.type
  | none => "TEXT"

/-- One step of the env-override loop in `NewStreamConfigFromYaml`: an
environment parameter overrides the value of an existing YAML parameter
(defaulting its empty type to TEXT) or is inserted as a new TEXT
parameter. -/
def applyEnvParam (params : List (String × Param)) (kv : String × String) :
    List (String × Param) :=
  match lookupParam params kv.1 with
  | some p =>
    params.map (fun q =>
      if q.1 = kv.1 then
        (q.1, { value := kv.2, type := if p.type = "" then "TEXT" else p.type })
      else q)
  | none => params ++ [(kv.1, { value := kv.2, type := "TEXT" })]

def mergeEnvParams (yamlParams : List (String × Param))
    (envParams : List (String × String)) : List (String × Param) :=
  envParams.foldl applyEnvParam yamlParams

/-- Lexicographic string order by character sequence.  Go's
`strings.Compare` is bytewise over UTF-8, which coincides with this
codepoint-lexicographic order on valid UTF-8 strings. -/
def strLe (a b : String) : Prop := a.data ≤ b.data

instance : DecidableRel strLe :=
  fun a b => inferInstanceAs (Decidable (a.data ≤ b.data))

instance : IsTrans String strLe := ⟨fun _ _ _ h1 h2 => le_trans h1 h2⟩

instance : IsTotal String strLe := ⟨fun a b => le_total a.data b.data⟩

/-- `SortKeys` (data/config): sort the key list lexicographically
(`strings.Compare`); on duplicate-free lists the sorting algorithm is
irrelevant, so insertion sort stands in for `slices.SortFunc`. -/
def SortKeys (keys : List String) : List String :=
  keys.insertionSort strLe

/-- The `ParamKeys` list produced by `NewStreamConfigFromYaml`: the keys of
the merged parameter map, sorted. -/
def newStreamConfigParamKeys (yamlParams : List (String × Param))
    (envParams : List (String × String)) : List String :=
  SortKeys ((mergeEnvParams yamlParams envParams).map (fun q => q.1))

/-- A bound SQL parameter value (`[]interface{}` element in Go). -/
inductive SqlParam where
  | strVal (s : String)
  | intVal (n : Int)
  | boolVal (b : Bool)
  deriving Repr, DecidableEq

/-- Modelled from the external `spf13/cast` library (`cast.ToInt64`) on
string input: parse an optionally signed decimal integer, 0 on failure.
No claim depends on its numeric output. -/
def castToInt64 (s : String) : Int :=
  match setStringBase10 s.toList with
  | some v => v
  | none => 0

/-- Modelled from the external `spf13/cast` library (`cast.ToBool`) on
string input (`strconv.ParseBool` semantics, false on failure).  No claim
depends on its output. -/
def castToBool (s : String) : Bool :=
  s = "1" ∨ s = "t" ∨ s = "T" ∨ s = "true" ∨ s = "TRUE" ∨ s = "True"

/-- Go map indexing `config.Params[key]` yields the zero value for a
missing key. -/
def goMapGetParam (params : List (String × Param)) (k : String) : Param :=
  (lookupParam params k).getD { value := "", type := "" }

/-- Embedding of `BuildParams` (database/database.go): the switch on the
declared type has cases for TEXT/empty, INT2/INT4/INT8 and BOOLEAN and no
default case, so a parameter with any other declared type appends
nothing. -/
def BuildParams (paramKeys : List String) (params : List (String × Param)) :
    List SqlParam :=
  match paramKeys with
  | [] => []
  | k :: rest =>
    let pv := goMapGetParam params k
    if pv.type = "TEXT" ∨ pv.type = "" then
      SqlParam.strVal pv.value :: BuildParams rest params
    else if pv.type = "INT2" ∨ pv.type = "INT4" ∨ pv.type = "INT8" then
      SqlParam.intVal (castToInt64 pv.value) :: BuildParams rest params
    else if pv.type = "BOOLEAN" then
      SqlParam.boolVal (castToBool pv.value) :: BuildParams rest params
    else
      BuildParams rest params

/-- The per-parameter coercion of `BuildParams`, as a single function:
`none` for the declared types the switch does not handle. -/
def coerceParam (p : Param) : Option SqlParam :=
  if p.type = "TEXT" ∨ p.type = "" then some (SqlParam.strVal p.value)
  else if p.type = "INT2" ∨ p.type = "INT4" ∨ p.type = "INT8" then
    some (SqlParam.intVal (castToInt64 p.value))
  else if p.type = "BOOLEAN" then some (SqlParam.boolVal (castToBool p.value))
  else none

/-! ## Lemmas: two's-complement casts -/

theorem toSigned_of_lt {w n : Nat} (h : n < 2 ^ (w - 1)) : toSigned w n = n := by
  have hw : n < 2 ^ w := lt_of_lt_of_le h (Nat.pow_le_pow_right (by norm_num) (Nat.sub_le w 1))
  simp [toSigned, Nat.mod_eq_of_lt hw, h]

theorem toSigned_of_ge {w n : Nat} (h1 : 2 ^ (w - 1) ≤ n) (h2 : n < 2 ^ w) :
    toSigned w n = (n : Int) - ((2 ^ w : Nat) : Int) := by
  simp only [toSigned, Nat.mod_eq_of_lt h2]
  rw [if_neg (by omega)]

theorem goIntCast_eq_self {w : Nat} (hw : 0 < w) {x : Int} (h : x.natAbs < 2 ^ (w - 1)) :
    goIntCast w x = x := by
  have hA : ((2 ^ (w - 1) : Nat) : Int) * 2 = ((2 ^ w : Nat) : Int) := by
    push_cast
    rw [← pow_succ]
    congr 1
    omega
  rcases le_or_lt 0 x with hx | hx
  · have hx1 : x < ((2 ^ w : Nat) : Int) := by omega
    simp only [goIntCast, Int.emod_eq_of_lt hx hx1]
    have htn : x.toNat < 2 ^ (w - 1) := by omega
    rw [toSigned_of_lt htn]
    omega
  · have hmod : x % ((2 ^ w : Nat) : Int) = x + ((2 ^ w : Nat) : Int) := by
      conv_lhs => rw [show x = (x + ((2 ^ w : Nat) : Int)) + ((2 ^ w : Nat) : Int) * (-1) by ring]
      rw [Int.add_mul_emod_self_left]
      exact Int.emod_eq_of_lt (by omega) (by omega)
    simp only [goIntCast, hmod]
    have htn1 : 2 ^ (w - 1) ≤ (x + ((2 ^ w : Nat) : Int)).toNat := by omega
    have htn2 : (x + ((2 ^ w : Nat) : Int)).toNat < 2 ^ w := by omega
    rw [toSigned_of_ge htn1 htn2]
    omega

theorem goIntCast_congr {w : Nat} {x y : Int}
    (h : x % ((2 ^ w : Nat) : Int) = y % ((2 ^ w : Nat) : Int)) :
    goIntCast w x = goIntCast w y := by
  simp only [goIntCast, h]

theorem toSigned_emod (w : Nat) (n : Nat) :
    toSigned w n % ((2 ^ w : Nat) : Int) = (n : Int) % ((2 ^ w : Nat) : Int) := by
  by_cases h : n % 2 ^ w < 2 ^ (w - 1)
  · simp only [toSigned, h, if_true]
    push_cast
    rw [Int.emod_emod_of_dvd _ dvd_rfl]
  · simp only [toSigned, h, if_false]
    have hsplit : ((n % 2 ^ w : Nat) : Int) - ((2 ^ w : Nat) : Int) =
        ((n % 2 ^ w : Nat) : Int) + ((2 ^ w : Nat) : Int) * (-1) := by ring
    rw [hsplit, Int.add_mul_emod_self_left]
    push_cast
    rw [Int.emod_emod_of_dvd _ dvd_rfl]

theorem goIntCast_emod (w : Nat) (x : Int) :
    goIntCast w x % ((2 ^ w : Nat) : Int) = x % ((2 ^ w : Nat) : Int) := by
  have hBpos : (0 : Int) < ((2 ^ w : Nat) : Int) := by
    exact_mod_cast pow_pos (by norm_num : (0:ℕ) < 2) w
  simp only [goIntCast]
  rw [toSigned_emod]
  have hnn : 0 ≤ x % ((2 ^ w : Nat) : Int) := Int.emod_nonneg x (by omega)
  rw [Int.toNat_of_nonneg hnn, Int.emod_emod_of_dvd _ dvd_rfl]

theorem goIntCast_goIntCast {w' w : Nat} (h : w' ≤ w) (x : Int) :
    goIntCast w' (goIntCast w x) = goIntCast w' x := by
  refine goIntCast_congr ?_
  have hdvd : ((2 ^ w' : Nat) : Int) ∣ ((2 ^ w : Nat) : Int) := by
    exact_mod_cast Int.natCast_dvd_natCast.mpr (pow_dvd_pow 2 h)
  calc goIntCast w x % ((2 ^ w' : Nat) : Int)
      = goIntCast w x % ((2 ^ w : Nat) : Int) % ((2 ^ w' : Nat) : Int) := by
        rw [Int.emod_emod_of_dvd _ hdvd]
    _ = x % ((2 ^ w : Nat) : Int) % ((2 ^ w' : Nat) : Int) := by rw [goIntCast_emod]
    _ = x % ((2 ^ w' : Nat) : Int) := by rw [Int.emod_emod_of_dvd _ hdvd]

/-! ## Lemmas: big-endian byte strings -/

theorem natToBytesAux_congr :
    ∀ f₁ f₂ n : Nat, n ≤ f₁ → n ≤ f₂ → natToBytesAux f₁ n = natToBytesAux f₂ n := by
  intro f₁
  induction f₁ with
  | zero =>
    intro f₂ n h₁ _
    interval_cases n
    cases f₂ <;> simp [natToBytesAux]
  | succ f ih =>
    intro f₂ n h₁ h₂
    cases f₂ with
    | zero =>
      interval_cases n
      simp [natToBytesAux]
    | succ f' =>
      by_cases hn : n = 0
      · simp [natToBytesAux, hn]
      · have hlt : n / 256 < n := Nat.div_lt_self (Nat.pos_of_ne_zero hn) (by norm_num)
        simp only [natToBytesAux, hn, if_false]
        rw [ih f' (n / 256) (by omega) (by omega)]

theorem natToBytes_eq (n : Nat) :
    natToBytes n = if n = 0 then [] else natToBytes (n / 256) ++ [n % 256] := by
  by_cases h : n = 0
  · simp [natToBytes, natToBytesAux, h]
  · cases n with
    | zero => exact absurd rfl h
    | succ m =>
      have hlt : (m + 1) / 256 < m + 1 := Nat.div_lt_self (by omega) (by norm_num)
      simp only [natToBytes, natToBytesAux, h, if_false]
      rw [natToBytesAux_congr m ((m + 1) / 256) ((m + 1) / 256) (by omega) le_rfl]

theorem bytesToNat_foldl (l : List Nat) (acc : Nat) :
    l.foldl (fun a b => a * 256 + b) acc = acc * 256 ^ l.length + bytesToNat l := by
  induction l generalizing acc with
  | nil => simp [bytesToNat]
  | cons b bs ih =>
    simp only [List.foldl_cons, List.length_cons, bytesToNat]
    rw [ih (acc * 256 + b), ih (0 * 256 + b)]
    ring

theorem bytesToNat_append (a b : List Nat) :
    bytesToNat (a ++ b) = bytesToNat a * 256 ^ b.length + bytesToNat b := by
  unfold bytesToNat
  rw [List.foldl_append, bytesToNat_foldl]
  rfl

theorem bytesToNat_natToBytes (n : Nat) : bytesToNat (natToBytes n) = n := by
  induction n using Nat.strong_induction_on with
  | _ n ih =>
    rw [natToBytes_eq]
    by_cases h : n = 0
    · simp [h, bytesToNat]
    · have hlt : n / 256 < n := Nat.div_lt_self (Nat.pos_of_ne_zero h) (by norm_num)
      simp only [h, if_false]
      rw [bytesToNat_append, ih _ hlt]
      simp [bytesToNat]
      omega

theorem natToBytes_length_le {n k : Nat} (h : n < 256 ^ k) : (natToBytes n).length ≤ k := by
  induction n using Nat.strong_induction_on generalizing k with
  | _ n ih =>
    rw [natToBytes_eq]
    by_cases h0 : n = 0
    · simp [h0]
    · cases k with
      | zero => simp at h; omega
      | succ k' =>
        have hlt : n / 256 < n := Nat.div_lt_self (Nat.pos_of_ne_zero h0) (by norm_num)
        have hdiv : n / 256 < 256 ^ k' := by
          rw [Nat.div_lt_iff_lt_mul (by norm_num : 0 < 256)]
          calc n < 256 ^ (k' + 1) := h
            _ = 256 ^ k' * 256 := by ring
        simp only [h0, if_false, List.length_append, List.length_cons, List.length_nil]
        have := ih _ hlt hdiv
        omega

theorem lt_pow_length_natToBytes (n : Nat) : n < 256 ^ (natToBytes n).length := by
  induction n using Nat.strong_induction_on with
  | _ n ih =>
    rw [natToBytes_eq]
    by_cases h0 : n = 0
    · simp [h0]
    · have hlt : n / 256 < n := Nat.div_lt_self (Nat.pos_of_ne_zero h0) (by norm_num)
      have ihd := ih _ hlt
      simp only [h0, if_false, List.length_append, List.length_cons, List.length_nil]
      have hmod := Nat.div_add_mod n 256
      have hmlt : n % 256 < 256 := Nat.mod_lt _ (by norm_num)
      calc n = 256 * (n / 256) + n % 256 := by omega
        _ < 256 * (n / 256) + 256 := by omega
        _ = 256 * (n / 256 + 1) := by ring
        _ ≤ 256 * 256 ^ (natToBytes (n / 256)).length := by
            have : n / 256 + 1 ≤ 256 ^ (natToBytes (n / 256)).length := ihd
            exact Nat.mul_le_mul_left _ this
        _ = 256 ^ ((natToBytes (n / 256)).length + 0 + 1) := by ring

theorem lt_length_natToBytes {n k : Nat} (h : 256 ^ k ≤ n) : k < (natToBytes n).length := by
  have h2 := lt_pow_length_natToBytes n
  by_contra hc
  push_neg at hc
  have : 256 ^ (natToBytes n).length ≤ 256 ^ k :=
    Nat.pow_le_pow_right (by norm_num) hc
  omega

theorem bytesToNat_replicate_zero (k : Nat) : bytesToNat (List.replicate k 0) = 0 := by
  induction k with
  | zero => simp [bytesToNat]
  | succ k' ih =>
    rw [List.replicate_succ]
    show (0 :: List.replicate k' 0).foldl (fun a b => a * 256 + b) 0 = 0
    simpa [bytesToNat] using ih

theorem bytesToNat_zero_pad (k : Nat) (bs : List Nat) :
    bytesToNat (List.replicate k 0 ++ bs) = bytesToNat bs := by
  rw [bytesToNat_append, bytesToNat_replicate_zero]
  ring

/-! ## Lemmas: `calculateBytesForPrecision` -/

theorem log2Aux_eq : ∀ fuel n : Nat, n ≤ fuel → log2Aux fuel n = Nat.log2 n := by
  intro fuel
  induction fuel with
  | zero =>
    intro n h
    interval_cases n
    simp [log2Aux, Nat.log2]
  | succ f ih =>
    intro n h
    by_cases h2 : n ≥ 2
    · have hlt : n / 2 < n := Nat.div_lt_self (by omega) (by norm_num)
      simp only [log2Aux, h2, if_true]
      rw [ih (n / 2) (by omega)]
      conv_rhs => rw [Nat.log2]
      simp [h2]
    · simp only [log2Aux, h2, if_false]
      rw [Nat.log2]
      simp [h2]

theorem natLog2_eq_log (n : Nat) : natLog2 n = Nat.log 2 n := by
  rw [natLog2, log2Aux_eq n n le_rfl, Nat.log2_eq_log_two]

theorem one_le_calculateBytesForPrecision (p : Nat) :
    1 ≤ calculateBytesForPrecision p := by
  have h : (1 + 7) / 8 ≤ (ceilLog2Pow10 p + 1 + 7) / 8 :=
    Nat.div_le_div_right (by omega)
  simpa [calculateBytesForPrecision] using h

theorem ten_pow_lt_two_pow {p : Nat} (hp : 1 ≤ p) :
    10 ^ p < 2 ^ (8 * calculateBytesForPrecision p - 1) := by
  set L := Nat.log 2 (10 ^ p) with hL
  have hceil : ceilLog2Pow10 p = L + 1 := by
    rw [ceilLog2Pow10, if_neg (by omega), natLog2_eq_log]
  have hlt : 10 ^ p < 2 ^ (L + 1) := Nat.lt_pow_succ_log_self (by norm_num) _
  have hsize : 8 * calculateBytesForPrecision p = 8 * ((L + 9) / 8) := by
    rw [calculateBytesForPrecision, hceil]
  have hge : L + 2 ≤ 8 * ((L + 9) / 8) := by
    have h1 := Nat.div_add_mod (L + 9) 8
    have h2 : (L + 9) % 8 < 8 := Nat.mod_lt _ (by norm_num)
    omega
  calc 10 ^ p < 2 ^ (L + 1) := hlt
    _ ≤ 2 ^ (8 * calculateBytesForPrecision p - 1) := by
        apply Nat.pow_le_pow_right (by norm_num)
        omega

theorem pow256_eq (k : Nat) : 256 ^ k = 2 ^ (8 * k) := by
  rw [show (256 : Nat) = 2 ^ 8 by norm_num, ← pow_mul]

/-! ## Lemmas: `bigIntToFixedBytes` -/

theorem bigIntToFixedBytes_length {v : Int} {p : Nat} {bs : List Nat}
    (h : bigIntToFixedBytes v p = some bs) :
    bs.length = calculateBytesForPrecision p := by
  by_cases hv : v < 0
  · simp only [bigIntToFixedBytes, hv, if_true] at h
    split at h
    · exact absurd h (by simp)
    · rename_i hlen
      obtain rfl := Option.some.inj h
      simp only [List.length_append, List.length_replicate]
      omega
  · simp only [bigIntToFixedBytes, hv, if_false] at h
    split at h
    · exact absurd h (by simp)
    · rename_i hlen
      obtain rfl := Option.some.inj h
      simp only [List.length_append, List.length_replicate]
      omega

theorem bigIntToFixedBytes_nonneg_spec {v : Int} {p : Nat} (h0 : ¬ v < 0)
    (h : v.natAbs < 256 ^ calculateBytesForPrecision p) :
    bigIntToFixedBytes v p =
      some (List.replicate (calculateBytesForPrecision p - (natToBytes v.natAbs).length) 0 ++
        natToBytes v.natAbs) ∧
    bytesToNat (List.replicate (calculateBytesForPrecision p - (natToBytes v.natAbs).length) 0 ++
        natToBytes v.natAbs) = v.natAbs := by
  have hlen : (natToBytes v.natAbs).length ≤ calculateBytesForPrecision p :=
    natToBytes_length_le h
  constructor
  · simp only [bigIntToFixedBytes, h0, if_false]
    rw [if_neg (by omega)]
  · rw [bytesToNat_zero_pad, bytesToNat_natToBytes]

theorem bigIntToFixedBytes_neg_spec {v : Int} {p : Nat} (hv : v < 0)
    (h : v.natAbs ≤ 2 ^ (8 * calculateBytesForPrecision p - 1)) :
    bigIntToFixedBytes v p =
      some (natToBytes (2 ^ (8 * calculateBytesForPrecision p) - v.natAbs)) ∧
    (natToBytes (2 ^ (8 * calculateBytesForPrecision p) - v.natAbs)).length =
      calculateBytesForPrecision p ∧
    bytesToNat (natToBytes (2 ^ (8 * calculateBytesForPrecision p) - v.natAbs)) =
      2 ^ (8 * calculateBytesForPrecision p) - v.natAbs := by
  set size := calculateBytesForPrecision p with hsizedef
  have hsz : 1 ≤ size := one_le_calculateBytesForPrecision p
  have hpow : 2 ^ (8 * size - 1) * 2 = 2 ^ (8 * size) := by
    rw [← pow_succ]
    congr 1
    omega
  have hpow8 : 2 ^ (8 * (size - 1)) ≤ 2 ^ (8 * size - 1) :=
    Nat.pow_le_pow_right (by norm_num) (by omega)
  have ha1 : 1 ≤ v.natAbs := by omega
  set tc := 2 ^ (8 * size) - v.natAbs with htc
  have hcastInt : ((2 ^ (8 * size) : Nat) : Int) = (2 : Int) ^ (8 * size) := by
    push_cast
    ring
  have habs : ((2 : Int) ^ (8 * size) - (v.natAbs : Int)).natAbs = tc := by
    rw [← hcastInt]
    omega
  -- the two's-complement value always occupies exactly `size` bytes here
  have htc_lt : tc < 256 ^ size := by
    rw [pow256_eq]
    omega
  have htc_ge : 256 ^ (size - 1) ≤ tc := by
    rw [pow256_eq]
    omega
  have hlen_le : (natToBytes tc).length ≤ size := natToBytes_length_le htc_lt
  have hlen_gt : size - 1 < (natToBytes tc).length := lt_length_natToBytes htc_ge
  have hlen : (natToBytes tc).length = size := by omega
  refine ⟨?_, hlen, bytesToNat_natToBytes tc⟩
  simp only [bigIntToFixedBytes, hv, if_true, habs, ← hsizedef]
  rw [if_neg (by omega)]
  rw [hlen]
  simp

theorem bigIntToFixedBytes_roundtrip {v : Int} {p : Nat} (hp : 1 ≤ p)
    (h : v.natAbs < 10 ^ p) :
    ∃ bs, bigIntToFixedBytes v p = some bs ∧
      bs.length = calculateBytesForPrecision p ∧
      decodeFixedBytes bs = v := by
  set size := calculateBytesForPrecision p with hsizedef
  have hsz : 1 ≤ size := one_le_calculateBytesForPrecision p
  have hb : 10 ^ p < 2 ^ (8 * size - 1) := ten_pow_lt_two_pow hp
  have hpow : 2 ^ (8 * size - 1) * 2 = 2 ^ (8 * size) := by
    rw [← pow_succ]
    congr 1
    omega
  by_cases hv : v < 0
  · obtain ⟨hsome, hlen, hval⟩ := bigIntToFixedBytes_neg_spec (p := p) hv (by rw [← hsizedef]; omega)
    rw [← hsizedef] at hsome hlen hval
    refine ⟨_, hsome, by rw [hlen, hsizedef], ?_⟩
    rw [decodeFixedBytes, hval, hlen]
    rw [toSigned_of_ge (by omega) (by omega)]
    have hc : ((2 ^ (8 * size) - v.natAbs : Nat) : Int) =
        ((2 ^ (8 * size) : Nat) : Int) - (v.natAbs : Int) := by omega
    rw [hc]
    omega
  · have hfit : v.natAbs < 256 ^ calculateBytesForPrecision p := by
      rw [pow256_eq, ← hsizedef]
      omega
    obtain ⟨hsome, hval⟩ := bigIntToFixedBytes_nonneg_spec (p := p) hv hfit
    refine ⟨_, hsome, ?_, ?_⟩
    · exact bigIntToFixedBytes_length hsome
    · rw [decodeFixedBytes, hval, bigIntToFixedBytes_length hsome, ← hsizedef]
      rw [toSigned_of_lt (by omega)]
      omega

theorem bigIntToFixedBytes_nonneg_overflow {v : Int} {p : Nat} (h0 : ¬ v < 0)
    (h : 256 ^ calculateBytesForPrecision p ≤ v.natAbs) :
    bigIntToFixedBytes v p = none := by
  have hlen : calculateBytesForPrecision p < (natToBytes v.natAbs).length :=
    lt_length_natToBytes h
  simp only [bigIntToFixedBytes, h0, if_false]
  rw [if_pos (by omega)]

theorem bigIntToFixedBytes_neg_no_reject {v : Int} {p : Nat} (hv : v < 0)
    (h : v.natAbs < 2 ^ (8 * calculateBytesForPrecision p + 1)) :
    bigIntToFixedBytes v p ≠ none := by
  set size := calculateBytesForPrecision p with hsizedef
  have hcastInt : ((2 ^ (8 * size) : Nat) : Int) = (2 : Int) ^ (8 * size) := by
    push_cast
    ring
  have hpow : 2 ^ (8 * size) * 2 = 2 ^ (8 * size + 1) := by
    rw [← pow_succ]
  have ha1 : 1 ≤ v.natAbs := by omega
  have habs : ((2 : Int) ^ (8 * size) - (v.natAbs : Int)).natAbs < 256 ^ size := by
    rw [pow256_eq]
    omega
  have hlen : (natToBytes ((2 : Int) ^ (8 * size) - (v.natAbs : Int)).natAbs).length ≤ size :=
    natToBytes_length_le habs
  simp only [bigIntToFixedBytes, hv, if_true, ← hsizedef]
  rw [if_neg (by omega)]
  simp

/-! ## Lemmas: decimal-string parsing -/

theorem splitDot_ne_nil (l : List Char) : splitDot l ≠ [] := by
  cases l with
  | nil => simp [splitDot]
  | cons c rest =>
    by_cases hc : c = '.'
    · simp [splitDot, hc]
    · simp only [splitDot, hc, if_false]
      cases splitDot rest <;> simp

theorem splitDot_of_no_dot {l : List Char} (h : '.' ∉ l) : splitDot l = [l] := by
  induction l with
  | nil => rfl
  | cons c rest ih =>
    have hc : ¬ c = '.' := fun hc => h (by simp [hc])
    have hrest : '.' ∉ rest := fun hm => h (List.mem_cons_of_mem _ hm)
    simp only [splitDot, hc, if_false, ih hrest]

theorem splitDot_append_dot {I : List Char} (F : List Char) (h : '.' ∉ I) :
    splitDot (I ++ '.' :: F) = I :: splitDot F := by
  induction I with
  | nil => simp [splitDot]
  | cons c I' ih =>
    have hc : ¬ c = '.' := fun hc => h (by simp [hc])
    have hI' : '.' ∉ I' := fun hm => h (List.mem_cons_of_mem _ hm)
    rw [List.cons_append]
    simp only [splitDot, hc, if_false]
    rw [ih hI']

theorem splitDot_length (l : List Char) : (splitDot l).length = l.count '.' + 1 := by
  induction l with
  | nil => simp [splitDot]
  | cons c rest ih =>
    by_cases hc : c = '.'
    · subst hc
      simp [splitDot, ih, List.count_cons]
    · obtain ⟨g, gs, hg⟩ : ∃ g gs, splitDot rest = g :: gs := by
        cases hsp : splitDot rest with
        | nil => exact absurd hsp (splitDot_ne_nil rest)
        | cons g gs => exact ⟨g, gs, rfl⟩
      simp only [splitDot, hc, if_false, hg]
      rw [hg] at ih
      simp only [List.length_cons] at ih ⊢
      have : (c :: rest).count '.' = rest.count '.' := by
        simp [List.count_cons, hc]
      omega

theorem digitsVal_foldl (cs : List Char) (acc : Nat) :
    cs.foldl (fun a c => a * 10 + digitVal c) acc = acc * 10 ^ cs.length + digitsVal cs := by
  induction cs generalizing acc with
  | nil => simp [digitsVal]
  | cons c rest ih =>
    simp only [List.foldl_cons, List.length_cons, digitsVal]
    rw [ih (acc * 10 + digitVal c), ih (0 * 10 + digitVal c)]
    ring

theorem digitsVal_append (a b : List Char) :
    digitsVal (a ++ b) = digitsVal a * 10 ^ b.length + digitsVal b := by
  unfold digitsVal
  rw [List.foldl_append, digitsVal_foldl]
  rfl

theorem digitsVal_replicate_zero (k : Nat) : digitsVal (List.replicate k '0') = 0 := by
  induction k with
  | zero => rfl
  | succ k' ih =>
    rw [List.replicate_succ]
    show (('0' : Char) :: List.replicate k' '0').foldl (fun a c => a * 10 + digitVal c) 0 = 0
    simpa [digitsVal, digitVal] using ih

theorem isDigitChar_ne_dot {c : Char} (h : isDigitChar c = true) : c ≠ '.' := by
  intro hc
  subst hc
  revert h
  decide

theorem isDigitChar_ne_minus {c : Char} (h : isDigitChar c = true) : c ≠ '-' := by
  intro hc
  subst hc
  revert h
  decide

theorem isDigitChar_ne_plus {c : Char} (h : isDigitChar c = true) : c ≠ '+' := by
  intro hc
  subst hc
  revert h
  decide

theorem no_dot_of_all_digits {l : List Char} (h : l.all isDigitChar = true) : '.' ∉ l := by
  intro hmem
  have := List.all_eq_true.mp h _ hmem
  exact absurd this (by decide)

theorem setStringCore_digits {ds : List Char} (h1 : ds ≠ [])
    (h2 : ds.all isDigitChar = true) : setStringCore ds = some (digitsVal ds) := by
  simp [setStringCore, h1, h2]

theorem setStringBase10_digits {ds : List Char} (h1 : ds ≠ [])
    (h2 : ds.all isDigitChar = true) : setStringBase10 ds = some (digitsVal ds) := by
  obtain ⟨c, rest, rfl⟩ : ∃ c rest, ds = c :: rest := by
    cases ds with
    | nil => exact absurd rfl h1
    | cons c rest => exact ⟨c, rest, rfl⟩
  have hc : isDigitChar c = true := by
    have := List.all_eq_true.mp h2 c (List.mem_cons_self c rest)
    exact this
  rw [setStringBase10, if_neg (by simp [isDigitChar_ne_minus hc]),
    if_neg (by simp [isDigitChar_ne_plus hc])]
  exact setStringCore_digits h1 h2

theorem map_neg_match (o : Option Int) :
    (match o with
     | none => none
     | some v => some (-v)) =
      Option.map (fun v => -v)
        (match o with
         | none => none
         | some v => some v) := by
  cases o <;> rfl

theorem convert_cons_neg {t : List Char} (ht : t ≠ []) (hh : ¬ t.head? = some '-')
    (scale : Nat) :
    convertDecimalStringToUnscaledInt ('-' :: t) scale =
      (convertDecimalStringToUnscaledInt t scale).map (fun v => -v) := by
  simp only [convertDecimalStringToUnscaledInt]
  rw [if_neg (show ¬ ('-' :: t = []) by simp), if_neg ht]
  simp only [List.head?_cons, List.tail_cons, hh, if_false, eq_self_iff_true, if_true]
  by_cases h2 : (splitDot t).length > 2
  · simp [h2]
  · simp only [h2, if_false]
    split <;>
    · split
      · simp
      · exact map_neg_match _

theorem convert_no_sign (I : List Char) (F? : Option (List Char)) (scale : Nat)
    (hI : I ≠ []) (hIdig : I.all isDigitChar = true)
    (hFdig : (F?.getD []).all isDigitChar = true) (hFs : (F?.getD []).length ≤ scale) :
    convertDecimalStringToUnscaledInt (I ++ fracTail F?) scale =
      some ((digitsVal I : Int) * 10 ^ scale +
        (digitsVal (F?.getD []) : Int) * 10 ^ (scale - (F?.getD []).length)) := by
  obtain ⟨c, I', rfl⟩ : ∃ c I', I = c :: I' := by
    cases I with
    | nil => exact absurd rfl hI
    | cons c I' => exact ⟨c, I', rfl⟩
  have hc : isDigitChar c = true := List.all_eq_true.mp hIdig c (List.mem_cons_self c I')
  have hnodotI : '.' ∉ c :: I' := no_dot_of_all_digits hIdig
  have hpad : ∀ k, (List.replicate k '0').all isDigitChar = true := by
    intro k
    rw [List.all_eq_true]
    intro x hx
    rw [List.eq_of_mem_replicate hx]
    decide
  cases F? with
  | some F =>
    simp only [Option.getD_some] at hFdig hFs
    simp only [fracTail]
    have hndF : '.' ∉ F := no_dot_of_all_digits hFdig
    have hsplit : splitDot ((c :: I') ++ '.' :: F) = [c :: I', F] := by
      rw [splitDot_append_dot F hnodotI, splitDot_of_no_dot hndF]
    simp only [convertDecimalStringToUnscaledInt]
    rw [if_neg (show ¬ ((c :: I') ++ '.' :: F = []) by simp)]
    rw [show ((c :: I') ++ '.' :: F).head? = some c by simp]
    simp only [Option.some.injEq, isDigitChar_ne_minus hc, if_false]
    rw [hsplit]
    norm_num [List.headD_cons, List.getD_cons_succ, List.getD_cons_zero]
    refine ⟨hFs, ?_⟩
    rw [← List.cons_append]
    have hall : ((c :: I') ++ (F ++ List.replicate (scale - F.length) '0')).all
        isDigitChar = true := by
      simp only [List.all_append, Bool.and_eq_true]
      exact ⟨hIdig, hFdig, hpad _⟩
    rw [setStringBase10_digits (by simp) hall]
    have hval : digitsVal ((c :: I') ++ (F ++ List.replicate (scale - F.length) '0')) =
        digitsVal (c :: I') * 10 ^ scale +
          digitsVal F * 10 ^ (scale - F.length) := by
      rw [digitsVal_append, digitsVal_append, digitsVal_replicate_zero,
        List.length_append, List.length_replicate]
      have hlen : F.length + (scale - F.length) = scale := by omega
      rw [hlen]
      omega
    refine congrArg some ?_
    push_cast [hval]
    ring
  | none =>
    simp only [Option.getD_none] at hFdig hFs ⊢
    simp only [fracTail]
    have hsplit : splitDot ((c :: I') ++ []) = [c :: I'] := by
      rw [List.append_nil, splitDot_of_no_dot hnodotI]
    simp only [convertDecimalStringToUnscaledInt]
    rw [if_neg (show ¬ ((c :: I') ++ [] = []) by simp)]
    rw [show ((c :: I') ++ ([] : List Char)).head? = some c by simp]
    simp only [Option.some.injEq, isDigitChar_ne_minus hc, if_false]
    rw [hsplit]
    norm_num [List.headD_cons]
    rw [← List.cons_append]
    have hall : ((c :: I') ++ List.replicate scale '0').all isDigitChar = true := by
      simp only [List.all_append, Bool.and_eq_true]
      exact ⟨hIdig, hpad _⟩
    rw [setStringBase10_digits (by simp) hall]
    have hval : digitsVal ((c :: I') ++ List.replicate scale '0') =
        digitsVal (c :: I') * 10 ^ scale := by
      rw [digitsVal_append, digitsVal_replicate_zero, List.length_replicate]
      omega
    have h0 : digitsVal ([] : List Char) = 0 := rfl
    refine congrArg some ?_
    push_cast [hval, h0]
    ring

theorem convertDecimalString_spec (sign : Bool) (I : List Char) (F? : Option (List Char))
    (scale : Nat) (hI : I ≠ []) (hIdig : I.all isDigitChar = true)
    (hFdig : (F?.getD []).all isDigitChar = true) (hFs : (F?.getD []).length ≤ scale) :
    convertDecimalStringToUnscaledInt (mkDecimalString sign I F?) scale =
      some (decimalUnscaled sign I (F?.getD []) scale) := by
  obtain ⟨c, I', rfl⟩ : ∃ c I', I = c :: I' := by
    cases I with
    | nil => exact absurd rfl hI
    | cons c I' => exact ⟨c, I', rfl⟩
  have hc : isDigitChar c = true := List.all_eq_true.mp hIdig c (List.mem_cons_self c I')
  cases sign with
  | false =>
    have hbase := convert_no_sign (c :: I') F? scale hI hIdig hFdig hFs
    have hmk : mkDecimalString false (c :: I') F? = (c :: I') ++ fracTail F? := by
      simp [mkDecimalString]
    rw [hmk, hbase]
    refine congrArg some ?_
    simp [decimalUnscaled]
  | true =>
    have hmk : mkDecimalString true (c :: I') F? =
        '-' :: ((c :: I') ++ fracTail F?) := by
      simp [mkDecimalString]
    rw [hmk, convert_cons_neg (by simp) (by simp [isDigitChar_ne_minus hc]) scale,
      convert_no_sign (c :: I') F? scale hI hIdig hFdig hFs]
    simp only [Option.map_some']
    refine congrArg some ?_
    simp [decimalUnscaled]

theorem convert_two_dots {cs : List Char} (scale : Nat) (h : 2 ≤ cs.count '.') :
    convertDecimalStringToUnscaledInt cs scale = none := by
  have hne : cs ≠ [] := by
    intro heq
    rw [heq] at h
    simp at h
  obtain ⟨c, t, rfl⟩ : ∃ c t, cs = c :: t := by
    cases cs with
    | nil => exact absurd rfl hne
    | cons c t => exact ⟨c, t, rfl⟩
  by_cases hc : c = '-'
  · subst hc
    have hcount : 2 ≤ t.count '.' := by
      have : ('-' :: t).count '.' = t.count '.' := by
        simp [List.count_cons]
      omega
    simp only [convertDecimalStringToUnscaledInt]
    rw [if_neg (show ¬ ('-' :: t = []) by simp)]
    simp only [List.head?_cons, List.tail_cons, eq_self_iff_true, if_true]
    rw [if_pos (by rw [splitDot_length]; omega)]
  · simp only [convertDecimalStringToUnscaledInt]
    rw [if_neg (show ¬ (c :: t = []) by simp)]
    simp only [List.head?_cons, Option.some.injEq, hc, if_false]
    rw [if_pos (by rw [splitDot_length]; omega)]

theorem convert_frac_exceeds (sign : Bool) (I F : List Char) (scale : Nat)
    (hI : I ≠ []) (hIdig : I.all isDigitChar = true) (hFdig : F.all isDigitChar = true)
    (h : scale < F.length) :
    convertDecimalStringToUnscaledInt (mkDecimalString sign I (some F)) scale = none := by
  obtain ⟨c, I', rfl⟩ : ∃ c I', I = c :: I' := by
    cases I with
    | nil => exact absurd rfl hI
    | cons c I' => exact ⟨c, I', rfl⟩
  have hc : isDigitChar c = true := List.all_eq_true.mp hIdig c (List.mem_cons_self c I')
  have hnodotI : '.' ∉ c :: I' := no_dot_of_all_digits hIdig
  have hndF : '.' ∉ F := no_dot_of_all_digits hFdig
  have hsplit : splitDot ((c :: I') ++ '.' :: F) = [c :: I', F] := by
    rw [splitDot_append_dot F hnodotI, splitDot_of_no_dot hndF]
  have hbase : convertDecimalStringToUnscaledInt ((c :: I') ++ '.' :: F) scale = none := by
    simp only [convertDecimalStringToUnscaledInt]
    rw [if_neg (show ¬ ((c :: I') ++ '.' :: F = []) by simp)]
    rw [show ((c :: I') ++ '.' :: F).head? = some c by simp]
    simp only [Option.some.injEq, isDigitChar_ne_minus hc, if_false]
    rw [hsplit]
    rw [if_neg (by simp)]
    rw [if_pos (by simp [h])]
  cases sign with
  | false =>
    have hmk : mkDecimalString false (c :: I') (some F) = (c :: I') ++ '.' :: F := by
      simp [mkDecimalString, fracTail]
    rw [hmk, hbase]
  | true =>
    have hmk : mkDecimalString true (c :: I') (some F) =
        '-' :: ((c :: I') ++ '.' :: F) := by
      simp [mkDecimalString, fracTail]
    rw [hmk, convert_cons_neg (by simp) (by simp [isDigitChar_ne_minus hc]) scale, hbase]
    rfl

/-! ## Lemmas: list indexing -/

theorem getD_drop {α : Type} (l : List α) (m n : Nat) (d : α) :
    (l.drop m).getD n d = l.getD (m + n) d := by
  rw [List.getD_eq_getElem?_getD, List.getD_eq_getElem?_getD, List.getElem?_drop]

/-! ## Claim theorems -/

/-- C5: for every 16-byte payload read from a SQL Server UUID column with
`KeepOriginalUUID` unset, the value passed onward is the `swap3` permutation
of the input (bytes 0-3 reversed, 4-5 reversed, 6-7 reversed, 8-15
unchanged); in particular the example payload from the spec yields the UUID
`a0eebc99-9c0b-4ef8-bb6d-6bb9bd380a11`. -/
theorem convertSQLServerUUID_swap3 (bs : List Nat) (h : bs.length = 16) :
    (ConvertSQLServerUUID bs).length = 16 ∧
    (∀ i, i < 16 → (ConvertSQLServerUUID bs).getD i 0 = bs.getD (swap3Index i) 0) ∧
    msUUIDFixupCell false "UUID" (Cell.bytes bs) = Cell.bytes (ConvertSQLServerUUID bs) ∧
    uuidCanonicalString (ConvertSQLServerUUID
        [0x99, 0xbc, 0xee, 0xa0, 0x0b, 0x9c, 0xf8, 0x4e,
         0xbb, 0x6d, 0x6b, 0xb9, 0xbd, 0x38, 0x0a, 0x11]) =
      "a0eebc99-9c0b-4ef8-bb6d-6bb9bd380a11".toList := by
  refine ⟨?_, ?_, ?_, ?_⟩
  · simp [ConvertSQLServerUUID, h]
  · intro i hi
    simp only [ConvertSQLServerUUID, h]
    norm_num
    interval_cases i <;>
      simp [swap3Index, getD_drop, List.getD_cons_zero, List.getD_cons_succ]
  · simp [msUUIDFixupCell, h]
  · decide

/-- Witness for C5 at the spec's example payload. -/
theorem convertSQLServerUUID_swap3_witness :
    (ConvertSQLServerUUID
        [0x99, 0xbc, 0xee, 0xa0, 0x0b, 0x9c, 0xf8, 0x4e,
         0xbb, 0x6d, 0x6b, 0xb9, 0xbd, 0x38, 0x0a, 0x11]).length = 16 ∧
    (∀ i, i < 16 →
      (ConvertSQLServerUUID
          [0x99, 0xbc, 0xee, 0xa0, 0x0b, 0x9c, 0xf8, 0x4e,
           0xbb, 0x6d, 0x6b, 0xb9, 0xbd, 0x38, 0x0a, 0x11]).getD i 0 =
        ([0x99, 0xbc, 0xee, 0xa0, 0x0b, 0x9c, 0xf8, 0x4e,
          0xbb, 0x6d, 0x6b, 0xb9, 0xbd, 0x38, 0x0a, 0x11] : List Nat).getD (swap3Index i) 0) ∧
    msUUIDFixupCell false "UUID"
        (Cell.bytes [0x99, 0xbc, 0xee, 0xa0, 0x0b, 0x9c, 0xf8, 0x4e,
          0xbb, 0x6d, 0x6b, 0xb9, 0xbd, 0x38, 0x0a, 0x11]) =
      Cell.bytes (ConvertSQLServerUUID
        [0x99, 0xbc, 0xee, 0xa0, 0x0b, 0x9c, 0xf8, 0x4e,
         0xbb, 0x6d, 0x6b, 0xb9, 0xbd, 0x38, 0x0a, 0x11]) ∧
    uuidCanonicalString (ConvertSQLServerUUID
        [0x99, 0xbc, 0xee, 0xa0, 0x0b, 0x9c, 0xf8, 0x4e,
         0xbb, 0x6d, 0x6b, 0xb9, 0xbd, 0x38, 0x0a, 0x11]) =
      "a0eebc99-9c0b-4ef8-bb6d-6bb9bd380a11".toList :=
  convertSQLServerUUID_swap3
    [0x99, 0xbc, 0xee, 0xa0, 0x0b, 0x9c, 0xf8, 0x4e,
     0xbb, 0x6d, 0x6b, 0xb9, 0xbd, 0x38, 0x0a, 0x11] (by decide)

/-- C10: a byte slice whose length is not exactly 16 passes through the SQL
Server UUID conversion unchanged. -/
theorem convertSQLServerUUID_non16 (bs : List Nat) (h : bs.length ≠ 16) :
    ConvertSQLServerUUID bs = bs := by
  simp [ConvertSQLServerUUID, h]

/-- Witness for C10 on a 3-byte slice. -/
theorem convertSQLServerUUID_non16_witness :
    ([1, 2, 3] : List Nat).length ≠ 16 ∧ ConvertSQLServerUUID [1, 2, 3] = [1, 2, 3] :=
  ⟨by decide, convertSQLServerUUID_non16 [1, 2, 3] (by decide)⟩

/-- C6 counterexample: a Snowflake FIXED column with scale 0 and precision
4 is normalized to destination type NUMERIC(4,0), not SMALLINT — the
current `sfColumnsToPg` maps FIXED to NUMERIC unconditionally, and alias
resolution does not turn NUMERIC into SMALLINT. -/
theorem sfColumnsToPg_fixed_scale0_counterexample :
    ((sfColumnsToPg [⟨"n", "FIXED", "", 0, true, "", 0, 0, 4⟩]).getD 0
        ⟨"n", "FIXED", "", 0, true, "", 0, 0, 4⟩).type = "NUMERIC" ∧
    TypeAlias ((sfColumnsToPg [⟨"n", "FIXED", "", 0, true, "", 0, 0, 4⟩]).getD 0
        ⟨"n", "FIXED", "", 0, true, "", 0, 0, 4⟩).type = "NUMERIC" ∧
    ("NUMERIC" : String) ≠ "SMALLINT" := by
  refine ⟨rfl, rfl, by decide⟩

/-- C6 amended: in the Snowflake column normalization every driver-reported
FIXED column — whatever its scale and precision — gets destination type
NUMERIC carrying the original precision and scale, with the driver type
left intact; the scale-0 SMALLINT/INTEGER/BIGINT split exists only in a
superseded revision of the function. -/
theorem sfColumnsToPg_fixed_numeric (cols : List Column) (i : Nat) (c : Column)
    (hi : i < cols.length) (hdb : (cols.getD i c).databaseType = "FIXED") :
    ((sfColumnsToPg cols).getD i c).type = "NUMERIC" ∧
    ((sfColumnsToPg cols).getD i c).precision = (cols.getD i c).precision ∧
    ((sfColumnsToPg cols).getD i c).scale = (cols.getD i c).scale ∧
    ((sfColumnsToPg cols).getD i c).databaseType = (cols.getD i c).databaseType := by
  have hmap : (sfColumnsToPg cols).getD i c = sfColToPg (cols.getD i c) := by
    rw [sfColumnsToPg, List.getD_eq_getElem?_getD, List.getD_eq_getElem?_getD,
      List.getElem?_map, List.getElem?_eq_getElem hi]
    rfl
  rw [hmap]
  simp only [sfColToPg]
  rw [if_pos hdb]
  exact ⟨rfl, rfl, rfl, rfl⟩

/-- Witness for C6's amended statement at scale 0, precision 4 and at scale
2, precision 10. -/
theorem sfColumnsToPg_fixed_numeric_witness :
    ((sfColumnsToPg [⟨"n", "FIXED", "", 0, true, "", 0, 0, 4⟩]).getD 0
        ⟨"n", "FIXED", "", 0, true, "", 0, 0, 4⟩).type = "NUMERIC" ∧
    ((sfColumnsToPg [⟨"m", "FIXED", "", 0, true, "", 0, 2, 10⟩]).getD 0
        ⟨"m", "FIXED", "", 0, true, "", 0, 2, 10⟩).scale =
      (([⟨"m", "FIXED", "", 0, true, "", 0, 2, 10⟩] : List Column).getD 0
        ⟨"m", "FIXED", "", 0, true, "", 0, 2, 10⟩).scale :=
  ⟨(sfColumnsToPg_fixed_numeric [⟨"n", "FIXED", "", 0, true, "", 0, 0, 4⟩] 0
      ⟨"n", "FIXED", "", 0, true, "", 0, 0, 4⟩ (by decide) (by decide)).1,
   (sfColumnsToPg_fixed_numeric [⟨"m", "FIXED", "", 0, true, "", 0, 2, 10⟩] 0
      ⟨"m", "FIXED", "", 0, true, "", 0, 2, 10⟩ (by decide) (by decide)).2.2.1⟩

/-- C3: the decimal-string converter accepts a well-formed decimal literal
(optional minus, digits, optional point and at most `scale` fractional
digits) and returns the signed unscaled integer obtained by right-padding
the fractional part to `scale` digits and concatenating; it rejects a string
with more than one decimal point, and rejects a fractional part longer than
the scale. -/
theorem convertDecimalString_behavior :
    (∀ (sign : Bool) (I : List Char) (F? : Option (List Char)) (scale : Nat),
      I ≠ [] → I.all isDigitChar = true → (F?.getD []).all isDigitChar = true →
      (F?.getD []).length ≤ scale →
      convertDecimalStringToUnscaledInt (mkDecimalString sign I F?) scale =
        some (decimalUnscaled sign I (F?.getD []) scale)) ∧
    (∀ (cs : List Char) (scale : Nat), 2 ≤ cs.count '.' →
      convertDecimalStringToUnscaledInt cs scale = none) ∧
    (∀ (sign : Bool) (I F : List Char) (scale : Nat),
      I ≠ [] → I.all isDigitChar = true → F.all isDigitChar = true →
      scale < F.length →
      convertDecimalStringToUnscaledInt (mkDecimalString sign I (some F)) scale = none) :=
  ⟨fun sign I F? scale h1 h2 h3 h4 => convertDecimalString_spec sign I F? scale h1 h2 h3 h4,
   fun _ scale h => convert_two_dots scale h,
   fun sign I F scale h1 h2 h3 h4 => convert_frac_exceeds sign I F scale h1 h2 h3 h4⟩

/-- Witness for C3: `-12.05` at scale 3 parses to -12050; `1.2.3` and a
3-digit fraction at scale 2 are rejected. -/
theorem convertDecimalString_behavior_witness :
    convertDecimalStringToUnscaledInt (mkDecimalString true ['1', '2'] (some ['0', '5'])) 3 =
      some (decimalUnscaled true ['1', '2'] ['0', '5'] 3) ∧
    decimalUnscaled true ['1', '2'] ['0', '5'] 3 = -12050 ∧
    mkDecimalString true ['1', '2'] (some ['0', '5']) = "-12.05".toList ∧
    convertDecimalStringToUnscaledInt "1.2.3".toList 5 = none ∧
    convertDecimalStringToUnscaledInt (mkDecimalString false ['1'] (some ['2', '3', '4'])) 2 =
      none :=
  ⟨convertDecimalString_behavior.1 true ['1', '2'] (some ['0', '5']) 3
      (by decide) (by decide) (by decide) (by decide),
   by decide, by decide,
   convertDecimalString_behavior.2.1 "1.2.3".toList 5 (by decide),
   convertDecimalString_behavior.2.2 false ['1'] ['2', '3', '4'] 2
      (by decide) (by decide) (by decide) (by decide)⟩

/-- C1: a NUMERIC value given to the Parquet encoder as a decimal string
conforming to precision `p` and scale `s` (fractional part of at most `s`
digits, unscaled magnitude below `10^p`) is encoded without error, the
encoded unscaled integer equals the exact value of `value * 10^s`, and
decoding it and dividing by `10^s` recovers the value exactly. -/
theorem parquetDecimal_string_roundtrip (sign : Bool) (I : List Char)
    (F? : Option (List Char)) (p s : Nat)
    (hI : I ≠ []) (hIdig : I.all isDigitChar = true)
    (hFdig : (F?.getD []).all isDigitChar = true) (hFs : (F?.getD []).length ≤ s)
    (hp : 1 ≤ p)
    (hprec : digitsVal I * 10 ^ s +
      digitsVal (F?.getD []) * 10 ^ (s - (F?.getD []).length) < 10 ^ p) :
    ∃ d, convertToParquetDecimalString (mkDecimalString sign I F?) p s = some d ∧
      decodeParquetDecimal d = decimalUnscaled sign I (F?.getD []) s ∧
      (decodeParquetDecimal d : ℚ) / 10 ^ s = decimalRatValue sign I (F?.getD []) := by
  have hparse := convertDecimalString_spec sign I F? s hI hIdig hFdig hFs
  set F := F?.getD [] with hFdef
  set u := decimalUnscaled sign I F s with hu
  set N : Nat := digitsVal I * 10 ^ s + digitsVal F * 10 ^ (s - F.length) with hN
  have huN : u = (if sign then -1 else 1) * (N : Int) := by
    rw [hu, decimalUnscaled, hN]
    push_cast
    ring
  have habs : u.natAbs = N := by
    rw [huN]
    cases sign <;> simp
  have hratdiv : ∀ d : Int, d = u → (d : ℚ) / 10 ^ s = decimalRatValue sign I F := by
    intro d hd
    have hpow10 : (10 : ℚ) ^ s = 10 ^ F.length * 10 ^ (s - F.length) := by
      rw [← pow_add]
      congr 1
      omega
    have hval : (d : ℚ) = decimalRatValue sign I F * 10 ^ s := by
      rw [hd, huN]
      push_cast [hN]
      rw [decimalRatValue, hpow10]
      have h10 : (10 : ℚ) ^ F.length ≠ 0 := by positivity
      field_simp
      cases sign <;> simp <;> ring
    rw [hval]
    have h10s : (10 : ℚ) ^ s ≠ 0 := by positivity
    field_simp
  by_cases hp9 : p ≤ 9
  · have hfit : u.natAbs < 2 ^ 31 := by
      have : (10 : Nat) ^ p ≤ 10 ^ 9 := Nat.pow_le_pow_right (by norm_num) hp9
      have h9 : (10 : Nat) ^ 9 < 2 ^ 31 := by norm_num
      omega
    have h64 : goIntCast 64 u = u :=
      goIntCast_eq_self (by norm_num) (by norm_num at hfit ⊢; omega)
    have h32 : goIntCast 32 u = u :=
      goIntCast_eq_self (by norm_num) (by norm_num at hfit ⊢; omega)
    refine ⟨ParquetDecimal.int32Val u, ?_, rfl, hratdiv u rfl⟩
    simp only [convertToParquetDecimalString, hparse, if_pos hp9, ← hu, h64, h32]
  · by_cases hp18 : p ≤ 18
    · have hfit : u.natAbs < 2 ^ 63 := by
        have : (10 : Nat) ^ p ≤ 10 ^ 18 := Nat.pow_le_pow_right (by norm_num) hp18
        have h18 : (10 : Nat) ^ 18 < 2 ^ 63 := by norm_num
        omega
      have h64 : goIntCast 64 u = u :=
        goIntCast_eq_self (by norm_num) (by norm_num at hfit ⊢; omega)
      refine ⟨ParquetDecimal.int64Val u, ?_, rfl, hratdiv u rfl⟩
      simp only [convertToParquetDecimalString, hparse, if_neg hp9, if_pos hp18, ← hu, h64]
    · obtain ⟨bs, hsome, _, hdec⟩ := bigIntToFixedBytes_roundtrip hp
        (show u.natAbs < 10 ^ p by omega)
      refine ⟨ParquetDecimal.byteArrayVal bs, ?_, hdec, hratdiv _ hdec⟩
      simp only [convertToParquetDecimalString, hparse, if_neg hp9, if_neg hp18, ← hu,
        hsome, Option.map_some']

/-- Witness for C1 at the spec's example `639529.823302734000000`, precision
38, scale 15. -/
theorem parquetDecimal_string_roundtrip_witness :
    ∃ d, convertToParquetDecimalString
        (mkDecimalString false "639529".toList (some "823302734000000".toList)) 38 15 =
          some d ∧
      decodeParquetDecimal d =
        decimalUnscaled false "639529".toList ((some "823302734000000".toList).getD []) 15 ∧
      (decodeParquetDecimal d : ℚ) / 10 ^ 15 =
        decimalRatValue false "639529".toList ((some "823302734000000".toList).getD []) :=
  parquetDecimal_string_roundtrip false "639529".toList (some "823302734000000".toList) 38 15
    (by decide) (by decide) (by decide) (by decide) (by decide) (by decide)

/-- C4 counterexample: the string `9999999999` at precision 9, scale 0 has an
unscaled integer that does not fit in 32 bits, yet the conversion does not
fail — it silently emits the 32-bit truncation 1410065407. -/
theorem parquetDecimal_int32_overflow_not_an_error :
    convertDecimalStringToUnscaledInt "9999999999".toList 0 = some 9999999999 ∧
    (2 ^ 31 : Int) ≤ 9999999999 ∧
    convertToParquetDecimalString "9999999999".toList 9 0 =
      some (ParquetDecimal.int32Val 1410065407) ∧
    (1410065407 : Int) ≠ 9999999999 := by
  refine ⟨by decide, by decide, ?_, by decide⟩
  decide

/-- C4 amended: on the string path of the Parquet decimal conversion no
range check is performed: for precision ≤ 9 the result is always the signed
32-bit truncation of the unscaled integer, and for 9 < precision ≤ 18 always
the signed 64-bit truncation, in both cases without error. -/
theorem parquetDecimal_string_truncates (s : List Char) (p scale : Nat) (u : Int)
    (hparse : convertDecimalStringToUnscaledInt s scale = some u) :
    (p ≤ 9 → convertToParquetDecimalString s p scale =
      some (ParquetDecimal.int32Val (goIntCast 32 u))) ∧
    (9 < p → p ≤ 18 → convertToParquetDecimalString s p scale =
      some (ParquetDecimal.int64Val (goIntCast 64 u))) := by
  constructor
  · intro h9
    simp only [convertToParquetDecimalString, hparse, if_pos h9,
      goIntCast_goIntCast (by norm_num : 32 ≤ 64) u]
  · intro h9 h18
    simp only [convertToParquetDecimalString, hparse]
    rw [if_neg (by omega), if_pos h18]

/-- Witness for C4's amended statement at the overflowing input. -/
theorem parquetDecimal_string_truncates_witness :
    convertToParquetDecimalString "9999999999".toList 9 0 =
      some (ParquetDecimal.int32Val (goIntCast 32 9999999999)) ∧
    goIntCast 32 9999999999 = 1410065407 :=
  ⟨(parquetDecimal_string_truncates "9999999999".toList 9 0 9999999999 (by decide)).1
      (by decide),
   by decide⟩

/-- C2 counterexample: at precision 19 the fixed byte length is 9, and the
negative value `-(2^72)`, whose magnitude does not fit in 9 bytes, is not
rejected: it is silently encoded as nine 0xFF bytes (the encoding of -1). -/
theorem bigIntToFixedBytes_negative_overflow_not_rejected :
    calculateBytesForPrecision 19 = 9 ∧
    (256 : Nat) ^ 9 ≤ (-(2 ^ 72) : Int).natAbs ∧
    bigIntToFixedBytes (-(2 ^ 72)) 19 = some (List.replicate 9 0xFF) := by
  refine ⟨by decide, by decide, ?_⟩
  decide

/-- C2 amended: whenever `bigIntToFixedBytes` succeeds the byte string has
length `calculateBytesForPrecision p` (= ceil((ceil(p*log2 10)+1)/8)); a
non-negative value that fits is emitted big-endian with zero padding; a
non-negative value that does not fit in `size` bytes is rejected; an
in-range negative value is emitted as `2^(8*size) - |v|` (always exactly
`size` bytes, so the 0xFF fill never triggers in range); but a negative
value whose magnitude does not fit is NOT rejected while it stays below
`2^(8*size+1)`.  The spec's example `639529.823302734000000` at precision
38, scale 15 encodes to `0000000000000022ab4259eb6bcb2f80`. -/
theorem bigIntToFixedBytes_spec :
    (∀ (v : Int) (p : Nat) (bs : List Nat), bigIntToFixedBytes v p = some bs →
      bs.length = calculateBytesForPrecision p) ∧
    (∀ (v : Int) (p : Nat), 0 ≤ v → v.natAbs < 256 ^ calculateBytesForPrecision p →
      bigIntToFixedBytes v p =
        some (List.replicate
            (calculateBytesForPrecision p - (natToBytes v.natAbs).length) 0 ++
          natToBytes v.natAbs) ∧
        bytesToNat (List.replicate
            (calculateBytesForPrecision p - (natToBytes v.natAbs).length) 0 ++
          natToBytes v.natAbs) = v.natAbs) ∧
    (∀ (v : Int) (p : Nat), 0 ≤ v → 256 ^ calculateBytesForPrecision p ≤ v.natAbs →
      bigIntToFixedBytes v p = none) ∧
    (∀ (v : Int) (p : Nat), v < 0 →
      v.natAbs ≤ 2 ^ (8 * calculateBytesForPrecision p - 1) →
      bigIntToFixedBytes v p =
        some (natToBytes (2 ^ (8 * calculateBytesForPrecision p) - v.natAbs)) ∧
      (natToBytes (2 ^ (8 * calculateBytesForPrecision p) - v.natAbs)).length =
        calculateBytesForPrecision p ∧
      bytesToNat (natToBytes (2 ^ (8 * calculateBytesForPrecision p) - v.natAbs)) =
        2 ^ (8 * calculateBytesForPrecision p) - v.natAbs) ∧
    (∀ (v : Int) (p : Nat), v < 0 →
      v.natAbs < 2 ^ (8 * calculateBytesForPrecision p + 1) →
      bigIntToFixedBytes v p ≠ none) ∧
    convertToParquetDecimalString "639529.823302734000000".toList 38 15 =
      some (ParquetDecimal.byteArrayVal
        [0x00, 0x00, 0x00, 0x00, 0x00, 0x00, 0x00, 0x22,
         0xab, 0x42, 0x59, 0xeb, 0x6b, 0xcb, 0x2f, 0x80]) := by
  refine ⟨?_, ?_, ?_, ?_, ?_, ?_⟩
  · intro v p bs h
    exact bigIntToFixedBytes_length h
  · intro v p h0 hfit
    exact bigIntToFixedBytes_nonneg_spec (Int.not_lt.mpr h0) hfit
  · intro v p h0 hover
    exact bigIntToFixedBytes_nonneg_overflow (Int.not_lt.mpr h0) hover
  · intro v p hv hfit
    exact bigIntToFixedBytes_neg_spec hv hfit
  · intro v p hv hfit
    exact bigIntToFixedBytes_neg_no_reject hv hfit
  · decide

/-- Witness for C2's amended statement: the length law and negative encoding
at `v = -1`, precision 19, and the zero-padded non-negative encoding at
`v = 5`, precision 19. -/
theorem bigIntToFixedBytes_spec_witness :
    bigIntToFixedBytes (-1) 19 =
      some (natToBytes (2 ^ (8 * calculateBytesForPrecision 19) - (-1 : Int).natAbs)) ∧
    bigIntToFixedBytes (5 : Int) 19 =
      some (List.replicate
          (calculateBytesForPrecision 19 - (natToBytes (5 : Int).natAbs).length) 0 ++
        natToBytes (5 : Int).natAbs) ∧
    bigIntToFixedBytes (256 ^ 9 : Int) 19 = none :=
  ⟨(bigIntToFixedBytes_spec.2.2.2.1 (-1) 19 (by decide) (by decide)).1,
   (bigIntToFixedBytes_spec.2.1 (5 : Int) 19 (by decide) (by decide)).1,
   bigIntToFixedBytes_spec.2.2.1 (256 ^ 9 : Int) 19 (by decide) (by decide)⟩

/-! ## Lemmas: batch dispatch -/

theorem dropLast_cons_cons {α : Type} (a b : α) (l : List α) :
    (a :: b :: l).dropLast = a :: (b :: l).dropLast := rfl

theorem dispatchAux_spec {α : Type} (batchSize : Nat) (h : 1 ≤ batchSize) :
    ∀ (rows cur : List α), cur.length < batchSize →
      (dispatchAux batchSize rows cur).flatten = cur ++ rows ∧
      (∀ b ∈ (dispatchAux batchSize rows cur).dropLast, b.length = batchSize) ∧
      (∀ b ∈ dispatchAux batchSize rows cur, b.length ≤ batchSize) := by
  intro rows
  induction rows with
  | nil =>
    intro cur hcur
    by_cases hc : cur.isEmpty
    · rw [List.isEmpty_iff] at hc
      subst hc
      simp [dispatchAux]
    · simp only [dispatchAux, hc, if_false]
      refine ⟨by simp, by simp, ?_⟩
      intro b hb
      simp at hb
      subst hb
      omega
  | cons r rest ih =>
    intro cur hcur
    simp only [dispatchAux]
    by_cases hfull : batchSize ≤ (cur ++ [r]).length
    · rw [if_pos hfull]
      have hexact : (cur ++ [r]).length = batchSize := by
        simp only [List.length_append, List.length_singleton] at hfull ⊢
        omega
      obtain ⟨ih1, ih2, ih3⟩ := ih [] (by simpa using h)
      refine ⟨?_, ?_, ?_⟩
      · rw [List.flatten_cons, ih1]
        simp
      · cases hD : dispatchAux batchSize rest ([] : List α) with
        | nil => simp
        | cons d ds =>
          rw [dropLast_cons_cons]
          intro b hb
          rcases List.mem_cons.mp hb with rfl | hb'
          · exact hexact
          · rw [hD] at ih2
            exact ih2 b (hD ▸ hb')
      · intro b hb
        rcases List.mem_cons.mp hb with rfl | hb'
        · omega
        · exact ih3 b hb'
    · rw [if_neg hfull]
      have hlt : (cur ++ [r]).length < batchSize := by omega
      obtain ⟨ih1, ih2, ih3⟩ := ih (cur ++ [r]) hlt
      refine ⟨?_, ih2, ih3⟩
      rw [ih1]
      simp

theorem batchesToWriterTotal_eq {α : Type} (t : Nat) (batches : List (List α)) :
    batchesToWriterTotal t batches = t + (batches.map List.length).sum := by
  induction batches generalizing t with
  | nil => simp [batchesToWriterTotal]
  | cons b bs ih =>
    simp only [batchesToWriterTotal, List.foldl_cons] at ih ⊢
    rw [ih (t + b.length)]
    simp
    omega

/-- C7: the reader's batch dispatch sends every batch except the last with
exactly `batch_size` rows and the final batch with at most `batch_size`
rows; the concatenation of all sent batches is exactly the source row
sequence, so the batch row counts sum to the source row count, which is the
value accumulated by the writers into the `TotalRows` counter. -/
theorem batchDispatch_invariant {α : Type} (rows : List α) (batchSize : Nat)
    (h : 1 ≤ batchSize) :
    (∀ b ∈ (dispatchBatches batchSize rows).dropLast, b.length = batchSize) ∧
    (∀ b ∈ dispatchBatches batchSize rows, b.length ≤ batchSize) ∧
    (dispatchBatches batchSize rows).flatten = rows ∧
    ((dispatchBatches batchSize rows).map List.length).sum = rows.length ∧
    batchesToWriterTotal 0 (dispatchBatches batchSize rows) = rows.length := by
  obtain ⟨h1, h2, h3⟩ := dispatchAux_spec batchSize h rows [] (by simpa using h)
  have hsum : ((dispatchBatches batchSize rows).map List.length).sum = rows.length := by
    rw [← List.length_flatten]
    rw [dispatchBatches] at *
    rw [h1]
    simp
  refine ⟨h2, h3, ?_, hsum, ?_⟩
  · rw [dispatchBatches, h1]
    simp
  · rw [batchesToWriterTotal_eq, hsum]
    omega

/-- Witness for C7 at five rows with batch size two. -/
theorem batchDispatch_invariant_witness :
    dispatchBatches 2 [10, 20, 30, 40, 50] = [[10, 20], [30, 40], [50]] ∧
    (∀ b ∈ (dispatchBatches 2 [10, 20, 30, 40, 50]).dropLast, b.length = 2) ∧
    batchesToWriterTotal 0 (dispatchBatches 2 [10, 20, 30, 40, 50]) =
      ([10, 20, 30, 40, 50] : List Nat).length ∧
    GetBatchSize 0 = 100000 :=
  ⟨by decide,
   (batchDispatch_invariant [10, 20, 30, 40, 50] 2 (by decide)).1,
   (batchDispatch_invariant [10, 20, 30, 40, 50] 2 (by decide)).2.2.2.2,
   by decide⟩

/-! ## Lemmas: parameter map merging -/

theorem lookupParam_map_update (m : List (String × Param)) (a k : String) (p' : Param) :
    lookupParam (m.map (fun q => if q.1 = a then (q.1, p') else q)) k =
      if a = k then (lookupParam m k).map (fun _ => p') else lookupParam m k := by
  induction m with
  | nil => simp [lookupParam]
  | cons q m' ih =>
    obtain ⟨qk, qv⟩ := q
    simp only [List.map_cons]
    by_cases hqa : qk = a
    · subst hqa
      by_cases hqk : qk = k
      · subst hqk
        simp [lookupParam]
      · simp [lookupParam, hqk, ih]
    · by_cases hqk : qk = k
      · subst hqk
        have hak : ¬ a = qk := fun h => hqa h.symm
        simp [lookupParam, hqa, hak]
      · simp [lookupParam, hqa, hqk, ih]

theorem lookupParam_append_single_ne (m : List (String × Param)) (a k : String)
    (p : Param) (h : ¬ a = k) :
    lookupParam (m ++ [(a, p)]) k = lookupParam m k := by
  induction m with
  | nil => simp [lookupParam, h]
  | cons q m' ih =>
    by_cases hqk : q.1 = k <;> simp [lookupParam, hqk, ih]

theorem lookupParam_append_single_self (m : List (String × Param)) (a : String)
    (p : Param) (h : lookupParam m a = none) :
    lookupParam (m ++ [(a, p)]) a = some p := by
  induction m with
  | nil => simp [lookupParam]
  | cons q m' ih =>
    rw [lookupParam] at h
    by_cases hqa : q.1 = a
    · rw [if_pos hqa] at h
      exact absurd h (by simp)
    · rw [if_neg hqa] at h
      rw [List.cons_append, lookupParam, if_neg hqa]
      exact ih h

theorem lookupParam_applyEnvParam_ne (m : List (String × Param))
    (kv : String × String) (k : String) (h : ¬ kv.1 = k) :
    lookupParam (applyEnvParam m kv) k = lookupParam m k := by
  rw [applyEnvParam]
  cases hfind : lookupParam m kv.1 with
  | some p => rw [lookupParam_map_update, if_neg h]
  | none => exact lookupParam_append_single_ne m kv.1 k _ h

theorem lookupParam_applyEnvParam_self (m : List (String × Param)) (k v : String) :
    lookupParam (applyEnvParam m (k, v)) k =
      some { value := v, type := envMergedType (lookupParam m k) } := by
  simp only [applyEnvParam]
  cases hfind : lookupParam m k with
  | some p =>
    rw [lookupParam_map_update, if_pos rfl, hfind, Option.map_some']
    simp [envMergedType]
  | none =>
    rw [lookupParam_append_single_self m k _ hfind]
    simp [envMergedType]

theorem keys_applyEnvParam (m : List (String × Param)) (kv : String × String) :
    (applyEnvParam m kv).map Prod.fst =
      if (lookupParam m kv.1).isSome then m.map Prod.fst
      else m.map Prod.fst ++ [kv.1] := by
  rw [applyEnvParam]
  cases hfind : lookupParam m kv.1 with
  | some p =>
    simp only [Option.isSome_some, if_true, List.map_map]
    refine List.map_congr_left ?_
    intro q _
    by_cases hq : q.1 = kv.1 <;> simp [hq]
  | none => simp

theorem lookupParam_mergeEnvParams_not_mem (env : List (String × String))
    (m : List (String × Param)) (k : String) (h : k ∉ env.map Prod.fst) :
    lookupParam (mergeEnvParams m env) k = lookupParam m k := by
  induction env generalizing m with
  | nil => rfl
  | cons kv env' ih =>
    have hne : ¬ kv.1 = k := by
      intro heq
      exact h (by simp [← heq])
    have h' : k ∉ env'.map Prod.fst := by
      intro hmem
      exact h (by simp [hmem])
    show lookupParam (mergeEnvParams (applyEnvParam m kv) env') k = _
    rw [ih (applyEnvParam m kv) h', lookupParam_applyEnvParam_ne m kv k hne]

theorem lookupParam_mergeEnvParams_env (env : List (String × String))
    (m : List (String × Param)) (k v : String)
    (he : (env.map Prod.fst).Nodup) (hmem : (k, v) ∈ env) :
    lookupParam (mergeEnvParams m env) k =
      some { value := v, type := envMergedType (lookupParam m k) } := by
  induction env generalizing m with
  | nil => cases hmem
  | cons kv env' ih =>
    rw [List.map_cons, List.nodup_cons] at he
    rcases List.mem_cons.mp hmem with heq | hmem'
    · obtain rfl : kv = (k, v) := heq.symm
      have hk : k ∉ env'.map Prod.fst := he.1
      show lookupParam (mergeEnvParams (applyEnvParam m (k, v)) env') k = _
      rw [lookupParam_mergeEnvParams_not_mem env' _ k hk,
        lookupParam_applyEnvParam_self m k v]
    · have hne : ¬ kv.1 = k := by
        intro heq
        refine he.1 ?_
        rw [heq]
        exact List.mem_map_of_mem Prod.fst hmem'
      show lookupParam (mergeEnvParams (applyEnvParam m kv) env') k = _
      rw [ih (applyEnvParam m kv) he.2 hmem',
        lookupParam_applyEnvParam_ne m kv k hne]

theorem mergeEnvParams_keys (env : List (String × String))
    (m : List (String × Param)) (he : (env.map Prod.fst).Nodup) :
    (mergeEnvParams m env).map Prod.fst =
      m.map Prod.fst ++
        (env.map Prod.fst).filter (fun k => (lookupParam m k).isNone) := by
  induction env generalizing m with
  | nil => simp [mergeEnvParams]
  | cons kv env' ih =>
    rw [List.map_cons, List.nodup_cons] at he
    have hfilter : ∀ k ∈ env'.map Prod.fst,
        (lookupParam (applyEnvParam m kv) k).isNone = (lookupParam m k).isNone := by
      intro k hk
      have hne : ¬ kv.1 = k := by
        intro heq
        exact he.1 (heq ▸ hk)
      rw [lookupParam_applyEnvParam_ne m kv k hne]
    show (mergeEnvParams (applyEnvParam m kv) env').map Prod.fst = _
    rw [ih (applyEnvParam m kv) he.2, keys_applyEnvParam,
      List.filter_congr hfilter]
    cases hfind : lookupParam m kv.1 with
    | some p =>
      simp only [Option.isSome_some, if_true, List.map_cons]
      rw [List.filter_cons]
      simp [hfind]
    | none =>
      simp only [Option.isSome_none, Bool.false_eq_true, if_false, List.map_cons]
      rw [List.filter_cons]
      simp [hfind]

/-- C8 counterexample: a parameter declared only in YAML with an empty type
keeps the empty type after `NewStreamConfigFromYaml` — it is not defaulted
to TEXT (only parameters touched by an `MVR_PARAM_` environment variable
get the TEXT default). -/
theorem yaml_only_param_keeps_empty_type :
    mergeEnvParams [("a", { value := "v", type := "" })] [] =
      [("a", { value := "v", type := "" })] ∧
    lookupParam (mergeEnvParams [("a", { value := "v", type := "" })] []) "a" =
      some { value := "v", type := "" } ∧
    ("" : String) ≠ "TEXT" := by
  refine ⟨rfl, rfl, by decide⟩

/-- C8 amended: the ordered parameter key list is the lexicographically
sorted list of the keys of the merged parameter map, whose key set is the
YAML keys followed by the environment keys not declared in YAML, so an
environment value is bound under its key at that key's sorted position; an
environment-supplied parameter with no YAML-declared type gets type TEXT
(a YAML-only parameter with no declared type keeps the empty type). -/
theorem paramKeys_sorted_spec (yaml : List (String × Param))
    (env : List (String × String)) (he : (env.map Prod.fst).Nodup) :
    (newStreamConfigParamKeys yaml env).Sorted strLe ∧
    (newStreamConfigParamKeys yaml env).Perm
      (yaml.map Prod.fst ++
        (env.map Prod.fst).filter (fun k => (lookupParam yaml k).isNone)) ∧
    (∀ k v, (k, v) ∈ env →
      lookupParam (mergeEnvParams yaml env) k =
        some { value := v, type := envMergedType (lookupParam yaml k) }) := by
  refine ⟨List.sorted_insertionSort _ _, ?_, ?_⟩
  · have hperm : (newStreamConfigParamKeys yaml env).Perm
        ((mergeEnvParams yaml env).map Prod.fst) :=
      List.perm_insertionSort _ _
    rw [mergeEnvParams_keys env yaml he] at hperm
    exact hperm
  · intro k v hmem
    exact lookupParam_mergeEnvParams_env env yaml k v he hmem

/-- Witness for C8: keys `$3`, `$4` from YAML and `$2` from the environment
sort to `[$2, $3, $4]`, and the environment value is bound under `$2` with
type TEXT. -/
theorem paramKeys_sorted_spec_witness :
    (newStreamConfigParamKeys
        [("$4", { value := "", type := "INT4" }), ("$3", { value := "c", type := "" })]
        [("$2", "b")]).Sorted strLe ∧
    lookupParam (mergeEnvParams
        [("$4", { value := "", type := "INT4" }), ("$3", { value := "c", type := "" })]
        [("$2", "b")]) "$2" =
      some { value := "b", type := envMergedType (lookupParam [("$4", { value := "", type := "INT4" }), ("$3", { value := "c", type := "" })] "$2") } ∧
    newStreamConfigParamKeys
        [("$4", { value := "", type := "INT4" }), ("$3", { value := "c", type := "" })]
        [("$2", "b")] = ["$2", "$3", "$4"] :=
  ⟨(paramKeys_sorted_spec
      [("$4", { value := "", type := "INT4" }), ("$3", { value := "c", type := "" })]
      [("$2", "b")] (by decide)).1,
   (paramKeys_sorted_spec
      [("$4", { value := "", type := "INT4" }), ("$3", { value := "c", type := "" })]
      [("$2", "b")] (by decide)).2.2 "$2" "b" (by decide),
   by decide⟩

/-- C9 counterexample: a parameter whose declared type is none of
TEXT/empty/INT2/INT4/INT8/BOOLEAN is silently dropped by `BuildParams`, so
the bound parameter list does not always have one entry per key. -/
theorem buildParams_drops_unknown_type :
    BuildParams ["a"] [("a", { value := "2024-01-01", type := "DATE" })] = [] ∧
    ([] : List SqlParam).length ≠ (["a"] : List String).length := by
  refine ⟨rfl, by decide⟩

/-- C9 amended: `BuildParams` binds, in key order, one entry per key whose
declared type it knows — TEXT/empty bind the raw string, INT2/INT4/INT8 a
64-bit integer, BOOLEAN a boolean — and omits keys with any other declared
type. -/
theorem buildParams_spec (keys : List String) (params : List (String × Param)) :
    BuildParams keys params =
      keys.filterMap (fun k => coerceParam (goMapGetParam params k)) ∧
    (∀ v : String,
      coerceParam { value := v, type := "TEXT" } = some (SqlParam.strVal v) ∧
      coerceParam { value := v, type := "" } = some (SqlParam.strVal v) ∧
      coerceParam { value := v, type := "INT2" } = some (SqlParam.intVal (castToInt64 v)) ∧
      coerceParam { value := v, type := "INT4" } = some (SqlParam.intVal (castToInt64 v)) ∧
      coerceParam { value := v, type := "INT8" } = some (SqlParam.intVal (castToInt64 v)) ∧
      coerceParam { value := v, type := "BOOLEAN" } =
        some (SqlParam.boolVal (castToBool v))) ∧
    (∀ v t : String, t ≠ "TEXT" → t ≠ "" → t ≠ "INT2" → t ≠ "INT4" → t ≠ "INT8" →
      t ≠ "BOOLEAN" → coerceParam { value := v, type := t } = none) := by
  refine ⟨?_, ?_, ?_⟩
  · induction keys with
    | nil => rfl
    | cons k rest ih =>
      simp only [BuildParams, List.filterMap_cons]
      by_cases h1 : (goMapGetParam params k).type = "TEXT" ∨ (goMapGetParam params k).type = ""
      · simp [coerceParam, h1, ih]
      · by_cases h2 : (goMapGetParam params k).type = "INT2" ∨
            (goMapGetParam params k).type = "INT4" ∨ (goMapGetParam params k).type = "INT8"
        · simp [coerceParam, h1, h2, ih]
        · by_cases h3 : (goMapGetParam params k).type = "BOOLEAN"
          · simp [coerceParam, h1, h2, h3, ih]
          · simp [coerceParam, h1, h2, h3, ih]
  · intro v
    refine ⟨rfl, rfl, rfl, rfl, rfl, rfl⟩
  · intro v t h1 h2 h3 h4 h5 h6
    simp [coerceParam, h1, h2, h3, h4, h5, h6]

/-- Witness for C9's amended statement on a two-key configuration plus a
dropped DATE-typed parameter. -/
theorem buildParams_spec_witness :
    BuildParams ["b", "a"] [("a", { value := "5", type := "INT4" }),
        ("b", { value := "x", type := "" })] =
      ["b", "a"].filterMap (fun k =>
        coerceParam (goMapGetParam [("a", { value := "5", type := "INT4" }),
          ("b", { value := "x", type := "" })] k)) ∧
    coerceParam { value := "2024", type := "DATE" } = none :=
  ⟨(buildParams_spec ["b", "a"] [("a", { value := "5", type := "INT4" }),
      ("b", { value := "x", type := "" })]).1,
   (buildParams_spec [] []).2.2 "2024" "DATE" (by decide) (by decide) (by decide)
     (by decide) (by decide) (by decide)⟩

end Mvr
